import Mathlib

/-!
Shallow embedding of the `wt_version` crate (`src/lib.rs`): a four-field
version value type (`global`, `major`, `minor`, `patch`, each a `u16`),
with packing to/from a `u64`, a string parser and formatter, a standalone
string validator, and ordering derived from the packed form.

`u16` values are modelled as `Nat` together with the bound `< 65536`
(collected in `Version.Wf`); the packed `u64` is a `Nat` assumed `< 2^64`
where it matters.
-/

/-- Embeds `struct Version { global, major, minor, patch: u16 }`.
Fields are `Nat`s standing for `u16` values; `Version.Wf` records the
16-bit bounds that Rust's storage type enforces. -/
structure Version where
  global : Nat
  major : Nat
  minor : Nat
  patch : Nat
deriving DecidableEq

/-- Embeds `Version::new(global, major, minor, patch)`. -/
def Version.new (global major minor patch : Nat) : Version :=
  ⟨global, major, minor, patch⟩

/-- The invariant Rust enforces through the `u16` field type: every field
fits in 16 bits. -/
def Version.Wf (v : Version) : Prop :=
  v.global < 65536 ∧ v.major < 65536 ∧ v.minor < 65536 ∧ v.patch < 65536

instance (v : Version) : Decidable v.Wf := by
  unfold Version.Wf
  infer_instance

/-- Embeds `Version::to_u64`:
`((global as u64) << 48) | ((major as u64) << 32) | ((minor as u64) << 16) | (patch as u64)`. -/
def Version.to_u64 (v : Version) : Nat :=
  (v.global <<< 48) ||| (v.major <<< 32) ||| (v.minor <<< 16) ||| v.patch

/-- Embeds `Version::from_u64`: each field is the corresponding 16-bit
slice, `((value >> k) & 0xFFFF) as u16`. -/
def Version.from_u64 (value : Nat) : Version :=
  ⟨(value >>> 48) &&& 0xFFFF, (value >>> 32) &&& 0xFFFF,
   (value >>> 16) &&& 0xFFFF, value &&& 0xFFFF⟩

/-- Embeds `Ord::cmp` for `Version`: `self.to_u64().cmp(&other.to_u64())`. -/
def Version.cmp (a b : Version) : Ordering :=
  compare a.to_u64 b.to_u64

/-- Embeds `PartialOrd::partial_cmp` for `Version`:
`Some(self.to_u64().cmp(&other.to_u64()))`. -/
def Version.pcmp (a b : Version) : Option Ordering :=
  some (compare a.to_u64 b.to_u64)

/-- Embeds the `<` operator Rust derives from `partial_cmp`:
`matches!(self.partial_cmp(other), Some(Less))`. -/
def Version.ltb (a b : Version) : Bool :=
  decide (a.pcmp b = some Ordering.lt)

/-- Lexicographic comparison on the field tuple
(global, major, minor, patch), global most significant; the spec's
reference order. -/
def lexCmp (a b : Version) : Ordering :=
  (compare a.global b.global).then
    ((compare a.major b.major).then
      ((compare a.minor b.minor).then (compare a.patch b.patch)))

/-- The numeric value of a decimal digit character, as in Rust's
`char::to_digit(10)` used by `u16::from_str`: `None` unless the
character lies in `'0'..='9'`. -/
def digitVal (c : Char) : Option Nat :=
  if 48 ≤ c.toNat ∧ c.toNat ≤ 57 then some (c.toNat - 48) else none

/-- One step of the digit-accumulation loop inside `u16::from_str`
(`acc * 10 + digit`, propagating failure). -/
def pushDigit (acc : Option Nat) (c : Char) : Option Nat :=
  acc.bind fun n => (digitVal c).map fun d => n * 10 + d

/-- The digit-accumulation loop of `u16::from_str` over a digit string. -/
def parseDigits (l : List Char) : Option Nat :=
  l.foldl pushDigit (some 0)

/-- The sign handling of `u16::from_str` / `from_str_radix`: a single
leading `'+'` is stripped; anything else (including `'-'`, which is not
accepted for unsigned types) is left for the digit loop to reject. -/
def stripPlus : List Char → List Char
  | [] => []
  | c :: rest => if c = '+' then rest else c :: rest

/-- Embeds `u16::from_str`: strip an optional leading `'+'`, require a
non-empty run of decimal digits, and fail when the value does not fit in
16 bits. Rust checks overflow at each accumulation step; because the
accumulator only grows, that is equivalent to the final bound check made
here. -/
def u16_from_str (s : List Char) : Option Nat :=
  match stripPlus s with
  | [] => none
  | c :: cs =>
    match parseDigits (c :: cs) with
    | some n => if n < 65536 then some n else none
    | none => none

/-- Prepends a character to the first segment of a split (helper for
`splitOnDot`). -/
def consHead (c : Char) : List (List Char) → List (List Char)
  | [] => [[c]]
  | seg :: segs => (c :: seg) :: segs

/-- Embeds Rust's `str::split('.')`: every `'.'` starts a new segment,
adjacent/leading/trailing dots yield empty segments, and the empty
string yields one empty segment. -/
def splitOnDot : List Char → List (List Char)
  | [] => [[]]
  | c :: rest => if c = '.' then [] :: splitOnDot rest else consHead c (splitOnDot rest)

/-- Embeds `FromStr for Version`: split on `'.'`, consume the first four
segments in order as `u16`s (extra segments are never looked at), fail
with the unit error if a segment is missing or unparsable. -/
def Version.from_str (s : List Char) : Option Version :=
  match splitOnDot s with
  | g :: ma :: mi :: p :: _ =>
    match u16_from_str g, u16_from_str ma, u16_from_str mi, u16_from_str p with
    | some g, some ma, some mi, some p => some ⟨g, ma, mi, p⟩
    | _, _, _, _ => none
  | _ => none

/-- Embeds `Version::is_valid`: split on `'.'`, require exactly 3
segments, each parsing as a `u16`. -/
def Version.is_valid (s : List Char) : Bool :=
  let segs := splitOnDot s
  if segs.length ≠ 3 then false
  else segs.all fun e => (u16_from_str e).isSome

/-- The decimal digit character for a value below ten (as produced by
Rust's `Display` for integers). -/
def digitChar (n : Nat) : Char :=
  Char.ofNat (48 + n)

/-- Fuel-driven decimal rendering of a `Nat`, most significant digit
first, matching Rust's `{}` formatting of an integer (no sign, no
padding, no leading zeros). The fuel only bounds recursion depth;
`natDigits` supplies enough of it. -/
def natDigitsAux : Nat → Nat → List Char
  | 0, _ => []
  | fuel + 1, n =>
    if n < 10 then [digitChar n]
    else natDigitsAux fuel (n / 10) ++ [digitChar (n % 10)]

/-- Decimal rendering of a `Nat` as Rust's `{}` would produce. -/
def natDigits (n : Nat) : List Char :=
  natDigitsAux (n + 1) n

/-- Embeds `Display for Version`:
`write!(f, "{}.{}.{}.{}", global, major, minor, patch)`. -/
def Version.format (v : Version) : List Char :=
  natDigits v.global ++ '.' :: (natDigits v.major ++ '.' :: (natDigits v.minor ++ '.' :: natDigits v.patch))

theorem Version.to_u64_eq (v : Version) (h : v.Wf) :
    v.to_u64 = v.global * 2 ^ 48 + v.major * 2 ^ 32 + v.minor * 2 ^ 16 + v.patch := by
  obtain ⟨hg, hma, hmi, hp⟩ := h
  unfold Version.to_u64
  rw [Nat.shiftLeft_eq, Nat.shiftLeft_eq, Nat.shiftLeft_eq]
  rw [Nat.lor_assoc, Nat.lor_assoc]
  rw [Nat.mul_comm v.global, Nat.mul_comm v.major, Nat.mul_comm v.minor]
  rw [← Nat.mul_add_lt_is_or (show v.patch < 2 ^ 16 by omega)]
  rw [← Nat.mul_add_lt_is_or (show 2 ^ 16 * v.minor + v.patch < 2 ^ 32 by
    have : (2 : Nat) ^ 32 = 2 ^ 16 * 2 ^ 16 := by norm_num
    nlinarith)]
  rw [← Nat.mul_add_lt_is_or (show 2 ^ 32 * v.major + (2 ^ 16 * v.minor + v.patch) < 2 ^ 48 by
    have h1 : (2 : Nat) ^ 48 = 2 ^ 32 * 2 ^ 16 := by norm_num
    have h2 : (2 : Nat) ^ 32 = 2 ^ 16 * 2 ^ 16 := by norm_num
    nlinarith)]
  ring

theorem Version.from_u64_eq (value : Nat) :
    Version.from_u64 value =
      ⟨value / 2 ^ 48 % 65536, value / 2 ^ 32 % 65536,
       value / 2 ^ 16 % 65536, value % 65536⟩ := by
  unfold Version.from_u64
  have hm : (0xFFFF : Nat) = 2 ^ 16 - 1 := by norm_num
  rw [hm, Nat.and_pow_two_sub_one_eq_mod, Nat.and_pow_two_sub_one_eq_mod,
    Nat.and_pow_two_sub_one_eq_mod, Nat.and_pow_two_sub_one_eq_mod,
    Nat.shiftRight_eq_div_pow, Nat.shiftRight_eq_div_pow, Nat.shiftRight_eq_div_pow]

theorem Version.from_u64_wf (value : Nat) : (Version.from_u64 value).Wf := by
  rw [Version.from_u64_eq]
  refine ⟨?_, ?_, ?_, ?_⟩ <;> exact Nat.mod_lt _ (by norm_num)

/-- C2: packing and unpacking are mutually inverse with the documented
bit layout (`global` in bits 48–63, `major` in 32–47, `minor` in 16–31,
`patch` in 0–15): unpacking recovers every well-formed version, every
`u64` packs back to itself, every `u64` decodes to a well-formed version,
and the packed form is exactly the positional sum of the fields. -/
theorem pack_unpack_bijection :
    (∀ v : Version, v.Wf → Version.from_u64 v.to_u64 = v)
    ∧ (∀ n : Nat, n < 2 ^ 64 → (Version.from_u64 n).to_u64 = n)
    ∧ (∀ n : Nat, (Version.from_u64 n).Wf)
    ∧ (∀ v : Version, v.Wf →
        v.to_u64 = v.global * 2 ^ 48 + v.major * 2 ^ 32 + v.minor * 2 ^ 16 + v.patch) := by
  refine ⟨?_, ?_, Version.from_u64_wf, Version.to_u64_eq⟩
  · intro v hv
    obtain ⟨hg, hma, hmi, hp⟩ := hv
    rw [Version.to_u64_eq v ⟨hg, hma, hmi, hp⟩, Version.from_u64_eq]
    cases v with
    | mk g ma mi p =>
      simp only [Version.mk.injEq]
      refine ⟨?_, ?_, ?_, ?_⟩ <;> (simp only at hg hma hmi hp ⊢; omega)
  · intro n hn
    rw [Version.from_u64_eq, Version.to_u64_eq _ (by
      refine ⟨?_, ?_, ?_, ?_⟩ <;> exact Nat.mod_lt _ (by norm_num))]
    simp only
    omega

/-- C2 witness: the bijection instantiated at concrete inputs. -/
theorem pack_unpack_bijection_witness :
    (Version.new 2 33 5 14).Wf
    ∧ Version.from_u64 (Version.new 2 33 5 14).to_u64 = Version.new 2 33 5 14
    ∧ 5 < 2 ^ 64 ∧ (Version.from_u64 5).to_u64 = 5 :=
  ⟨by decide, pack_unpack_bijection.1 _ (by decide), by norm_num,
    pack_unpack_bijection.2.1 5 (by norm_num)⟩

theorem Version.ltb_iff (a b : Version) :
    a.ltb b = true ↔ a.to_u64 < b.to_u64 := by
  unfold Version.ltb Version.pcmp
  rw [decide_eq_true_iff, Option.some.injEq, Nat.compare_eq_lt]

theorem compare_packed (g1 m1 n1 p1 g2 m2 n2 p2 : Nat)
    (hg1 : g1 < 65536) (hm1 : m1 < 65536) (hn1 : n1 < 65536) (hp1 : p1 < 65536)
    (hg2 : g2 < 65536) (hm2 : m2 < 65536) (hn2 : n2 < 65536) (hp2 : p2 < 65536) :
    compare (g1 * 2 ^ 48 + m1 * 2 ^ 32 + n1 * 2 ^ 16 + p1)
        (g2 * 2 ^ 48 + m2 * 2 ^ 32 + n2 * 2 ^ 16 + p2) =
      (compare g1 g2).then ((compare m1 m2).then ((compare n1 n2).then (compare p1 p2))) := by
  rcases Nat.lt_trichotomy g1 g2 with hg | hg | hg
  · rw [Nat.compare_eq_lt.mpr hg, Nat.compare_eq_lt.mpr (by omega)]
    rfl
  · subst hg
    rw [Nat.compare_eq_eq.mpr rfl]
    rcases Nat.lt_trichotomy m1 m2 with hm | hm | hm
    · rw [Nat.compare_eq_lt.mpr hm, Nat.compare_eq_lt.mpr (by omega)]
      rfl
    · subst hm
      rw [Nat.compare_eq_eq.mpr rfl]
      rcases Nat.lt_trichotomy n1 n2 with hn | hn | hn
      · rw [Nat.compare_eq_lt.mpr hn, Nat.compare_eq_lt.mpr (by omega)]
        rfl
      · subst hn
        rw [Nat.compare_eq_eq.mpr rfl]
        rcases Nat.lt_trichotomy p1 p2 with hp | hp | hp
        · rw [Nat.compare_eq_lt.mpr hp, Nat.compare_eq_lt.mpr (by omega)]
          rfl
        · subst hp
          rw [Nat.compare_eq_eq.mpr rfl, Nat.compare_eq_eq.mpr rfl]
          rfl
        · rw [Nat.compare_eq_gt.mpr hp, Nat.compare_eq_gt.mpr (by omega)]
          rfl
      · rw [Nat.compare_eq_gt.mpr hn, Nat.compare_eq_gt.mpr (by omega)]
        rfl
    · rw [Nat.compare_eq_gt.mpr hm, Nat.compare_eq_gt.mpr (by omega)]
      rfl
  · rw [Nat.compare_eq_gt.mpr hg, Nat.compare_eq_gt.mpr (by omega)]
    rfl

/-- C1: the derived order is total and is numeric comparison of the
packed form: `a < b` iff `to_u64 a < to_u64 b`, `cmp` coincides with
lexicographic comparison on (global, major, minor, patch) with global
most significant, and `partial_cmp` never returns `None`. -/
theorem ordering_total_numeric_lex (a b : Version) (ha : a.Wf) (hb : b.Wf) :
    (a.ltb b = true ↔ a.to_u64 < b.to_u64)
    ∧ a.cmp b = lexCmp a b
    ∧ a.pcmp b ≠ none := by
  obtain ⟨hg1, hm1, hn1, hp1⟩ := ha
  obtain ⟨hg2, hm2, hn2, hp2⟩ := hb
  refine ⟨Version.ltb_iff a b, ?_, by simp [Version.pcmp]⟩
  unfold Version.cmp lexCmp
  rw [Version.to_u64_eq a ⟨hg1, hm1, hn1, hp1⟩, Version.to_u64_eq b ⟨hg2, hm2, hn2, hp2⟩]
  exact compare_packed _ _ _ _ _ _ _ _ hg1 hm1 hn1 hp1 hg2 hm2 hn2 hp2

/-- C1 witness: the ordering characterisation at concrete versions. -/
theorem ordering_total_numeric_lex_witness :
    (Version.new 2 33 5 14).Wf ∧ (Version.new 2 33 5 15).Wf
    ∧ (((Version.new 2 33 5 14).ltb (Version.new 2 33 5 15) = true
          ↔ (Version.new 2 33 5 14).to_u64 < (Version.new 2 33 5 15).to_u64)
        ∧ (Version.new 2 33 5 14).cmp (Version.new 2 33 5 15)
            = lexCmp (Version.new 2 33 5 14) (Version.new 2 33 5 15)
        ∧ (Version.new 2 33 5 14).pcmp (Version.new 2 33 5 15) ≠ none) :=
  ⟨by decide, by decide,
    ordering_total_numeric_lex (Version.new 2 33 5 14) (Version.new 2 33 5 15)
      (by decide) (by decide)⟩

/-- C6: the order is strictly monotone in each field and each field
dominates all fields below it: bumping any single field by one (within
range) gives a strictly greater version, a strictly larger higher-order
field wins regardless of the lower fields, and concretely
`Version::new(2,32,65535,65535) < Version::new(2,33,5,14)`. -/
theorem field_monotone_dominant :
    (∀ v : Version, v.Wf → v.patch + 1 < 65536 →
      v.ltb (Version.new v.global v.major v.minor (v.patch + 1)) = true)
    ∧ (∀ v : Version, v.Wf → v.minor + 1 < 65536 →
      v.ltb (Version.new v.global v.major (v.minor + 1) v.patch) = true)
    ∧ (∀ v : Version, v.Wf → v.major + 1 < 65536 →
      v.ltb (Version.new v.global (v.major + 1) v.minor v.patch) = true)
    ∧ (∀ v : Version, v.Wf → v.global + 1 < 65536 →
      v.ltb (Version.new (v.global + 1) v.major v.minor v.patch) = true)
    ∧ (∀ a b : Version, a.Wf → b.Wf → a.global < b.global → a.ltb b = true)
    ∧ (∀ a b : Version, a.Wf → b.Wf → a.global = b.global → a.major < b.major →
        a.ltb b = true)
    ∧ (∀ a b : Version, a.Wf → b.Wf → a.global = b.global → a.major = b.major →
        a.minor < b.minor → a.ltb b = true)
    ∧ (Version.new 2 32 65535 65535).ltb (Version.new 2 33 5 14) = true := by
  refine ⟨?_, ?_, ?_, ?_, ?_, ?_, ?_, by decide⟩
  · intro v hv hlt
    obtain ⟨hg, hma, hmi, hp⟩ := hv
    rw [Version.ltb_iff, Version.to_u64_eq v ⟨hg, hma, hmi, hp⟩,
      Version.to_u64_eq (Version.new v.global v.major v.minor (v.patch + 1))
        ⟨hg, hma, hmi, hlt⟩]
    simp only [Version.new]
    omega
  · intro v hv hlt
    obtain ⟨hg, hma, hmi, hp⟩ := hv
    rw [Version.ltb_iff, Version.to_u64_eq v ⟨hg, hma, hmi, hp⟩,
      Version.to_u64_eq (Version.new v.global v.major (v.minor + 1) v.patch)
        ⟨hg, hma, hlt, hp⟩]
    simp only [Version.new]
    omega
  · intro v hv hlt
    obtain ⟨hg, hma, hmi, hp⟩ := hv
    rw [Version.ltb_iff, Version.to_u64_eq v ⟨hg, hma, hmi, hp⟩,
      Version.to_u64_eq (Version.new v.global (v.major + 1) v.minor v.patch)
        ⟨hg, hlt, hmi, hp⟩]
    simp only [Version.new]
    omega
  · intro v hv hlt
    obtain ⟨hg, hma, hmi, hp⟩ := hv
    rw [Version.ltb_iff, Version.to_u64_eq v ⟨hg, hma, hmi, hp⟩,
      Version.to_u64_eq (Version.new (v.global + 1) v.major v.minor v.patch)
        ⟨hlt, hma, hmi, hp⟩]
    simp only [Version.new]
    omega
  · intro a b ha hb h1
    obtain ⟨hg1, hm1, hn1, hp1⟩ := ha
    obtain ⟨hg2, hm2, hn2, hp2⟩ := hb
    rw [Version.ltb_iff, Version.to_u64_eq a ⟨hg1, hm1, hn1, hp1⟩,
      Version.to_u64_eq b ⟨hg2, hm2, hn2, hp2⟩]
    omega
  · intro a b ha hb h1 h2
    obtain ⟨hg1, hm1, hn1, hp1⟩ := ha
    obtain ⟨hg2, hm2, hn2, hp2⟩ := hb
    rw [Version.ltb_iff, Version.to_u64_eq a ⟨hg1, hm1, hn1, hp1⟩,
      Version.to_u64_eq b ⟨hg2, hm2, hn2, hp2⟩]
    omega
  · intro a b ha hb h1 h2 h3
    obtain ⟨hg1, hm1, hn1, hp1⟩ := ha
    obtain ⟨hg2, hm2, hn2, hp2⟩ := hb
    rw [Version.ltb_iff, Version.to_u64_eq a ⟨hg1, hm1, hn1, hp1⟩,
      Version.to_u64_eq b ⟨hg2, hm2, hn2, hp2⟩]
    omega

/-- C6 witness: monotonicity instantiated at a concrete version. -/
theorem field_monotone_dominant_witness :
    (Version.new 2 33 5 14).Wf ∧ 14 + 1 < 65536
    ∧ (Version.new 2 33 5 14).ltb (Version.new 2 33 5 15) = true :=
  ⟨by decide, by decide, field_monotone_dominant.1 (Version.new 2 33 5 14) (by decide) (by decide)⟩

/-- C7: equality is structural, field by field, and coincides with
equality of the packed 64-bit form. -/
theorem equality_structural_packed (a b : Version) (ha : a.Wf) (hb : b.Wf) :
    (a = b ↔ a.global = b.global ∧ a.major = b.major ∧ a.minor = b.minor ∧ a.patch = b.patch)
    ∧ (a = b ↔ a.to_u64 = b.to_u64) := by
  obtain ⟨hg1, hm1, hn1, hp1⟩ := ha
  obtain ⟨hg2, hm2, hn2, hp2⟩ := hb
  constructor
  · cases a
    cases b
    simp [Version.mk.injEq]
  · constructor
    · intro h
      rw [h]
    · intro h
      rw [Version.to_u64_eq a ⟨hg1, hm1, hn1, hp1⟩,
        Version.to_u64_eq b ⟨hg2, hm2, hn2, hp2⟩] at h
      cases a
      cases b
      simp only [Version.mk.injEq]
      simp only at hg1 hm1 hn1 hp1 hg2 hm2 hn2 hp2 h
      omega

/-- C7 witness: the equality characterisation at concrete versions. -/
theorem equality_structural_packed_witness :
    (Version.new 2 33 5 14).Wf ∧ (Version.new 2 33 5 14).Wf
    ∧ ((Version.new 2 33 5 14 = Version.new 2 33 5 14 ↔
          (Version.new 2 33 5 14).global = (Version.new 2 33 5 14).global
          ∧ (Version.new 2 33 5 14).major = (Version.new 2 33 5 14).major
          ∧ (Version.new 2 33 5 14).minor = (Version.new 2 33 5 14).minor
          ∧ (Version.new 2 33 5 14).patch = (Version.new 2 33 5 14).patch)
        ∧ (Version.new 2 33 5 14 = Version.new 2 33 5 14 ↔
          (Version.new 2 33 5 14).to_u64 = (Version.new 2 33 5 14).to_u64)) :=
  ⟨by decide, by decide,
    equality_structural_packed (Version.new 2 33 5 14) (Version.new 2 33 5 14)
      (by decide) (by decide)⟩

theorem foldl_pushDigit_none (l : List Char) : List.foldl pushDigit none l = none := by
  induction l with
  | nil => rfl
  | cons c cs ih =>
    simp only [List.foldl_cons]
    have : pushDigit none c = none := rfl
    rw [this, ih]

theorem foldl_pushDigit_digits (l : List Char) :
    ∀ acc n, List.foldl pushDigit acc l = some n →
      ∀ c ∈ l, 48 ≤ c.toNat ∧ c.toNat ≤ 57 := by
  induction l with
  | nil => intro acc n _ c hc; cases hc
  | cons d ds ih =>
    intro acc n hfold c hc
    have hd : pushDigit acc d ≠ none := by
      intro hnone
      rw [List.foldl_cons, hnone, foldl_pushDigit_none] at hfold
      cases hfold
    have hdig : 48 ≤ d.toNat ∧ d.toNat ≤ 57 := by
      by_contra hcon
      apply hd
      cases acc with
      | none => rfl
      | some a =>
        unfold pushDigit digitVal
        rw [if_neg hcon]
        rfl
    cases hc with
    | head => exact hdig
    | tail _ hmem =>
      rw [List.foldl_cons] at hfold
      exact ih (pushDigit acc d) n hfold c hmem

theorem digitChar_toNat (n : Nat) (h : n < 10) : (digitChar n).toNat = 48 + n := by
  interval_cases n <;> decide

theorem digitVal_digitChar (n : Nat) (h : n < 10) : digitVal (digitChar n) = some n := by
  interval_cases n <;> decide

theorem natDigitsAux_shape (fuel n : Nat) (h : n < 10 ^ (fuel + 1)) :
    ∃ c cs, natDigitsAux (fuel + 1) n = c :: cs
      ∧ (∀ d ∈ c :: cs, 48 ≤ d.toNat ∧ d.toNat ≤ 57)
      ∧ (1 ≤ n → 49 ≤ c.toNat) := by
  induction fuel generalizing n with
  | zero =>
    have hn : n < 10 := by simpa using h
    refine ⟨digitChar n, [], by simp [natDigitsAux, hn], ?_, ?_⟩
    · intro d hd
      rcases List.mem_singleton.mp hd with rfl
      rw [digitChar_toNat n hn]
      omega
    · intro h1
      rw [digitChar_toNat n hn]
      omega
  | succ fuel ih =>
    by_cases hn : n < 10
    · refine ⟨digitChar n, [], by simp [natDigitsAux, hn], ?_, ?_⟩
      · intro d hd
        rcases List.mem_singleton.mp hd with rfl
        rw [digitChar_toNat n hn]
        omega
      · intro h1
        rw [digitChar_toNat n hn]
        omega
    · have hdiv : n / 10 < 10 ^ (fuel + 1) := by
        rw [pow_succ] at h
        omega
      obtain ⟨c, cs, heq, hall, hhead⟩ := ih (n / 10) hdiv
      refine ⟨c, cs ++ [digitChar (n % 10)], ?_, ?_, ?_⟩
      · show natDigitsAux (fuel + 1 + 1) n = c :: (cs ++ [digitChar (n % 10)])
        rw [show natDigitsAux (fuel + 1 + 1) n
            = natDigitsAux (fuel + 1) (n / 10) ++ [digitChar (n % 10)] by
          simp [natDigitsAux, hn]]
        rw [heq]
        rfl
      · intro d hd
        rcases List.mem_cons.mp hd with heq' | hd'
        · rw [heq']
          exact hall c (List.mem_cons_self c cs)
        · rcases List.mem_append.mp hd' with hmem | hmem
          · exact hall d (List.mem_cons_of_mem c hmem)
          · rcases List.mem_singleton.mp hmem with rfl
            rw [digitChar_toNat (n % 10) (Nat.mod_lt n (by omega))]
            omega
      · intro _
        exact hhead (by omega)

theorem foldl_pushDigit_natDigitsAux (fuel : Nat) :
    ∀ n a, n < 10 ^ (fuel + 1) →
      List.foldl pushDigit (some a) (natDigitsAux (fuel + 1) n)
        = some (a * 10 ^ (natDigitsAux (fuel + 1) n).length + n) := by
  induction fuel with
  | zero =>
    intro n a h
    have hn : n < 10 := by simpa using h
    rw [show natDigitsAux 1 n = [digitChar n] by simp [natDigitsAux, hn]]
    simp only [List.foldl_cons, List.foldl_nil, List.length_cons, List.length_nil]
    unfold pushDigit
    rw [digitVal_digitChar n hn]
    simp [Option.bind]
  | succ fuel ih =>
    intro n a h
    by_cases hn : n < 10
    · rw [show natDigitsAux (fuel + 1 + 1) n = [digitChar n] by simp [natDigitsAux, hn]]
      simp only [List.foldl_cons, List.foldl_nil, List.length_cons, List.length_nil]
      unfold pushDigit
      rw [digitVal_digitChar n hn]
      simp [Option.bind]
    · have hdiv : n / 10 < 10 ^ (fuel + 1) := by
        rw [pow_succ] at h
        omega
      rw [show natDigitsAux (fuel + 1 + 1) n
          = natDigitsAux (fuel + 1) (n / 10) ++ [digitChar (n % 10)] by
        simp [natDigitsAux, hn]]
      rw [List.foldl_append, ih (n / 10) a hdiv]
      simp only [List.foldl_cons, List.foldl_nil, List.length_append, List.length_cons,
        List.length_nil]
      unfold pushDigit
      rw [digitVal_digitChar (n % 10) (Nat.mod_lt n (by omega))]
      simp only [Option.bind, Option.map]
      congr 1
      have hmod : 10 * (n / 10) + n % 10 = n := Nat.div_add_mod n 10
      calc (a * 10 ^ (natDigitsAux (fuel + 1) (n / 10)).length + n / 10) * 10 + n % 10
          = a * (10 ^ (natDigitsAux (fuel + 1) (n / 10)).length * 10)
            + (10 * (n / 10) + n % 10) := by ring
        _ = a * 10 ^ ((natDigitsAux (fuel + 1) (n / 10)).length + 1 + 0) + n := by
            rw [hmod, pow_succ]

theorem natDigits_shape (n : Nat) :
    ∃ c cs, natDigits n = c :: cs
      ∧ (∀ d ∈ c :: cs, 48 ≤ d.toNat ∧ d.toNat ≤ 57)
      ∧ (1 ≤ n → 49 ≤ c.toNat) := by
  unfold natDigits
  exact natDigitsAux_shape n n (lt_of_lt_of_le (Nat.lt_pow_self (by omega) n)
    (Nat.pow_le_pow_right (by omega) (by omega)))

theorem natDigits_all_digits (n : Nat) :
    ∀ d ∈ natDigits n, 48 ≤ d.toNat ∧ d.toNat ≤ 57 := by
  obtain ⟨c, cs, heq, hall, _⟩ := natDigits_shape n
  rw [heq]
  exact hall

theorem parseDigits_natDigits (n : Nat) : parseDigits (natDigits n) = some n := by
  unfold parseDigits natDigits
  have h : n < 10 ^ (n + 1) := lt_of_lt_of_le (Nat.lt_pow_self (by omega) n)
    (Nat.pow_le_pow_right (by omega) (by omega))
  rw [foldl_pushDigit_natDigitsAux n n 0 h]
  simp

theorem u16_from_str_natDigits (n : Nat) (h : n < 65536) :
    u16_from_str (natDigits n) = some n := by
  obtain ⟨c, cs, heq, hall, _⟩ := natDigits_shape n
  have hc : c ≠ '+' := by
    intro hplus
    have := (hall c (List.mem_cons_self c cs)).1
    rw [hplus] at this
    exact absurd this (by decide)
  have hsp : stripPlus (natDigits n) = c :: cs := by
    rw [heq]
    show (if c = '+' then cs else c :: cs) = c :: cs
    rw [if_neg hc]
  have hpd : parseDigits (c :: cs) = some n := by
    rw [← heq]
    exact parseDigits_natDigits n
  unfold u16_from_str
  rw [hsp]
  show (match parseDigits (c :: cs) with
    | some m => if m < 65536 then some m else none
    | none => none) = some n
  rw [hpd]
  show (if n < 65536 then some n else none) = some n
  rw [if_pos h]

theorem splitOnDot_no_dot (xs : List Char) (h : ∀ c ∈ xs, c ≠ '.') :
    splitOnDot xs = [xs] := by
  induction xs with
  | nil => rfl
  | cons c cs ih =>
    show (if c = '.' then [] :: splitOnDot cs else consHead c (splitOnDot cs)) = [c :: cs]
    rw [if_neg (h c (List.mem_cons_self c cs))]
    rw [ih fun d hd => h d (List.mem_cons_of_mem c hd)]
    rfl

theorem splitOnDot_append_dot (xs ys : List Char) (h : ∀ c ∈ xs, c ≠ '.') :
    splitOnDot (xs ++ '.' :: ys) = xs :: splitOnDot ys := by
  induction xs with
  | nil =>
    show (if ('.' : Char) = '.' then [] :: splitOnDot ys else consHead '.' (splitOnDot ys))
      = [] :: splitOnDot ys
    rw [if_pos rfl]
  | cons c cs ih =>
    show (if c = '.' then [] :: splitOnDot (cs ++ '.' :: ys)
        else consHead c (splitOnDot (cs ++ '.' :: ys)))
      = (c :: cs) :: splitOnDot ys
    rw [if_neg (h c (List.mem_cons_self c cs))]
    rw [ih fun d hd => h d (List.mem_cons_of_mem c hd)]
    rfl

theorem natDigits_no_dot (n : Nat) : ∀ c ∈ natDigits n, c ≠ '.' := by
  intro c hc hdot
  have := (natDigits_all_digits n c hc).1
  rw [hdot] at this
  exact absurd this (by decide)

theorem splitOnDot_format (v : Version) :
    splitOnDot v.format
      = [natDigits v.global, natDigits v.major, natDigits v.minor, natDigits v.patch] := by
  unfold Version.format
  rw [splitOnDot_append_dot _ _ (natDigits_no_dot v.global),
    splitOnDot_append_dot _ _ (natDigits_no_dot v.major),
    splitOnDot_append_dot _ _ (natDigits_no_dot v.minor),
    splitOnDot_no_dot _ (natDigits_no_dot v.patch)]

theorem from_str_format (v : Version) (h : v.Wf) :
    Version.from_str v.format = some v := by
  obtain ⟨hg, hma, hmi, hp⟩ := h
  unfold Version.from_str
  rw [splitOnDot_format v]
  simp only [u16_from_str_natDigits v.global hg, u16_from_str_natDigits v.major hma,
    u16_from_str_natDigits v.minor hmi, u16_from_str_natDigits v.patch hp]

/-- C3: formatting then parsing is the identity: for every version with
16-bit fields, parsing the formatted string succeeds and returns the
original version. -/
theorem format_parse_roundtrip (v : Version) (h : v.Wf) :
    Version.from_str v.format = some v :=
  from_str_format v h

/-- C3 witness: the round trip at a concrete version. -/
theorem format_parse_roundtrip_witness :
    (Version.new 2 33 5 14).Wf
    ∧ Version.from_str (Version.new 2 33 5 14).format = some (Version.new 2 33 5 14) :=
  ⟨by decide, format_parse_roundtrip (Version.new 2 33 5 14) (by decide)⟩

theorem from_str_isSome_iff (s : List Char) :
    (Version.from_str s).isSome = true ↔
      4 ≤ (splitOnDot s).length
      ∧ ∀ seg ∈ (splitOnDot s).take 4, (u16_from_str seg).isSome = true := by
  unfold Version.from_str
  rcases hs : splitOnDot s with _ | ⟨g, _ | ⟨ma, _ | ⟨mi, _ | ⟨p, rest⟩⟩⟩⟩
  · simp
  · simp
  · simp
  · simp
  · simp only [List.length_cons, List.take_succ_cons, List.take_zero]
    cases hg : u16_from_str g <;> cases hma : u16_from_str ma <;>
      cases hmi : u16_from_str mi <;> cases hp : u16_from_str p <;>
      simp [hg, hma, hmi, hp, List.forall_mem_cons] <;> omega

/-- C4: parsing succeeds exactly when splitting on `'.'` yields at least
four segments whose first four parse as `u16` (extra segments are
ignored); otherwise it returns the undifferentiated unit error and no
partial version. Concretely `""`, `"2.33.5"` and `"2.33.5.."` all fail,
while `"2.33.5.14.99"` succeeds with the trailing segment ignored. -/
theorem parse_success_characterisation :
    (∀ s : List Char, (Version.from_str s).isSome = true ↔
        4 ≤ (splitOnDot s).length
        ∧ ∀ seg ∈ (splitOnDot s).take 4, (u16_from_str seg).isSome = true)
    ∧ Version.from_str "".toList = none
    ∧ Version.from_str "2.33.5".toList = none
    ∧ Version.from_str "2.33.5..".toList = none
    ∧ Version.from_str "2.33.5.14.99".toList = some (Version.new 2 33 5 14) :=
  ⟨from_str_isSome_iff, by decide, by decide, by decide, by decide⟩

/-- C4 witness: the success characterisation at a concrete input. -/
theorem parse_success_characterisation_witness :
    (Version.from_str "1.2.3.4".toList).isSome = true ↔
      4 ≤ (splitOnDot "1.2.3.4".toList).length
      ∧ ∀ seg ∈ (splitOnDot "1.2.3.4".toList).take 4, (u16_from_str seg).isSome = true :=
  parse_success_characterisation.1 "1.2.3.4".toList

theorem is_valid_iff (s : List Char) :
    Version.is_valid s = true ↔
      (splitOnDot s).length = 3 ∧ ∀ seg ∈ splitOnDot s, (u16_from_str seg).isSome = true := by
  show (if (splitOnDot s).length ≠ 3 then false
      else (splitOnDot s).all fun e => (u16_from_str e).isSome) = true ↔ _
  by_cases h : (splitOnDot s).length = 3
  · rw [if_neg (by simp [h])]
    simp [List.all_eq_true, h]
  · rw [if_pos h]
    simp [h]

/-- C5: `is_valid` accepts exactly the strings that split into exactly 3
segments, each parsing as a `u16`, and rejects everything else; in
particular `"2.33.5"` passes `is_valid` yet fails the actual parser. -/
theorem is_valid_characterisation :
    (∀ s : List Char, Version.is_valid s = true ↔
        (splitOnDot s).length = 3 ∧ ∀ seg ∈ splitOnDot s, (u16_from_str seg).isSome = true)
    ∧ Version.is_valid "2.33.5".toList = true
    ∧ Version.from_str "2.33.5".toList = none :=
  ⟨is_valid_iff, by decide, by decide⟩

/-- C5 witness: the validator characterisation at a concrete input. -/
theorem is_valid_characterisation_witness :
    Version.is_valid "2.33.5".toList = true ↔
      (splitOnDot "2.33.5".toList).length = 3
      ∧ ∀ seg ∈ splitOnDot "2.33.5".toList, (u16_from_str seg).isSome = true :=
  is_valid_characterisation.1 "2.33.5".toList

/-- C8: formatting always yields exactly four dot-separated decimal
segments in the order global, major, minor, patch: splitting the output
on `'.'` gives the four rendered fields, every character of every
segment is a decimal digit (natural decimal form: no sign, and since a
multi-digit rendering never starts with `'0'`, no extra leading zeros),
zero renders as `"0"` rather than being omitted, and concretely
`format(Version::new(2,33,5,14)) == "2.33.5.14"`. -/
theorem format_four_decimal_segments :
    (∀ v : Version, splitOnDot v.format
        = [natDigits v.global, natDigits v.major, natDigits v.minor, natDigits v.patch])
    ∧ (∀ n : Nat, ∀ c ∈ natDigits n, 48 ≤ c.toNat ∧ c.toNat ≤ 57)
    ∧ (∀ n : Nat, 1 ≤ n → ∀ c cs, natDigits n = c :: cs → c ≠ '0')
    ∧ natDigits 0 = ['0']
    ∧ Version.format (Version.new 2 33 5 14) = "2.33.5.14".toList := by
  refine ⟨splitOnDot_format, natDigits_all_digits, ?_, by decide, by decide⟩
  intro n h1 c cs heq hzero
  obtain ⟨c', cs', heq', _, hhead⟩ := natDigits_shape n
  rw [heq] at heq'
  have hc : c = c' := ((List.cons.injEq c cs c' cs').mp heq').1
  have := hhead h1
  rw [← hc, hzero] at this
  exact absurd this (by decide)

/-- C8 witness: the no-leading-zero clause instantiated concretely. -/
theorem format_four_decimal_segments_witness :
    1 ≤ 14 ∧ natDigits 14 = '1' :: '4' :: [] ∧ ('1' : Char) ≠ '0' :=
  ⟨by decide, by decide,
    format_four_decimal_segments.2.2.1 14 (by decide) '1' ('4' :: []) (by decide)⟩

/-- C10: the validator rejects every string the formatter produces:
formatting yields four dot-separated segments while `is_valid` demands
exactly three, so `is_valid(v.to_string())` is false for every version. -/
theorem is_valid_rejects_format (v : Version) : Version.is_valid v.format = false := by
  show (if (splitOnDot v.format).length ≠ 3 then false
      else (splitOnDot v.format).all fun e => (u16_from_str e).isSome) = false
  rw [splitOnDot_format v]
  simp

theorem u16_from_str_parseDigits (s : List Char) (n : Nat) (h : u16_from_str s = some n) :
    ∃ m, parseDigits (stripPlus s) = some m := by
  unfold u16_from_str at h
  cases hsp : stripPlus s with
  | nil =>
    rw [hsp] at h
    exact Option.noConfusion h
  | cons e es =>
    rw [hsp] at h
    have h' : (match parseDigits (e :: es) with
      | some k => if k < 65536 then some k else none
      | none => none) = some n := h
    cases hpd : parseDigits (e :: es) with
    | none =>
      rw [hpd] at h'
      exact Option.noConfusion h'
    | some m => exact ⟨m, rfl⟩

theorem mem_stripPlus (s : List Char) (c : Char) (hc : c ∈ s) :
    c ∈ stripPlus s ∨ c = '+' := by
  cases s with
  | nil => cases hc
  | cons e es =>
    show c ∈ (if e = '+' then es else e :: es) ∨ c = '+'
    by_cases he : e = '+'
    · rw [if_pos he]
      rcases List.mem_cons.mp hc with heq | hmem
      · right
        rw [heq, he]
      · left
        exact hmem
    · rw [if_neg he]
      left
      exact hc

theorem u16_from_str_chars (s : List Char) (n : Nat) (h : u16_from_str s = some n) :
    ∀ c ∈ s, (48 ≤ c.toNat ∧ c.toNat ≤ 57) ∨ c = '+' := by
  intro c hc
  obtain ⟨m, hm⟩ := u16_from_str_parseDigits s n h
  rcases mem_stripPlus s c hc with hmem | hplus
  · exact Or.inl (foldl_pushDigit_digits (stripPlus s) (some 0) m hm c hmem)
  · exact Or.inr hplus

theorem u16_from_str_no_whitespace (s : List Char) (n : Nat) (h : u16_from_str s = some n) :
    ∀ c ∈ s, c.isWhitespace = false := by
  intro c hc
  rcases u16_from_str_chars s n h c hc with ⟨h1, _⟩ | hplus
  · by_contra hw
    rw [Bool.not_eq_false] at hw
    have hcases : c = ' ' ∨ c = '\t' ∨ c = '\r' ∨ c = '\n' := by
      simpa [Char.isWhitespace, decide_eq_true_iff, or_assoc] using hw
    rcases hcases with rfl | rfl | rfl | rfl <;> exact absurd h1 (by decide)
  · rw [hplus]
    decide

theorem from_str_whitespace_fails (s seg : List Char)
    (hmem : seg ∈ (splitOnDot s).take 4) (c : Char) (hc : c ∈ seg)
    (hw : c.isWhitespace = true) :
    Version.from_str s = none := by
  cases hres : Version.from_str s with
  | none => rfl
  | some v =>
    obtain ⟨_, hall⟩ := (from_str_isSome_iff s).mp (by rw [hres]; rfl)
    obtain ⟨m, hm⟩ := Option.isSome_iff_exists.mp (hall seg hmem)
    have := u16_from_str_no_whitespace seg m hm c hc
    rw [hw] at this
    exact Bool.noConfusion this

/-- C9 counterexample: the claim "any leading `'+'` in one of the first
four segments makes parsing fail" is false: `"+2.33.5.14"` parses
successfully, because Rust's `u16::from_str` accepts an optional leading
`'+'`. -/
theorem plus_sign_parses :
    Version.from_str "+2.33.5.14".toList = some (Version.new 2 33 5 14) := by
  decide

/-- C9 (amended): the accepted wire format tolerates no whitespace — any
whitespace character in one of the first four dot-separated segments
makes parsing fail — but a leading `'+'` sign in a segment is accepted
by the underlying `u16` parser rather than rejected. -/
theorem wire_format_whitespace_and_sign :
    (∀ s seg, seg ∈ (splitOnDot s).take 4 → ∀ c ∈ seg, c.isWhitespace = true →
        Version.from_str s = none)
    ∧ Version.from_str "+2.33.5.14".toList = some (Version.new 2 33 5 14) :=
  ⟨fun s seg hmem c hc hw => from_str_whitespace_fails s seg hmem c hc hw, by decide⟩

/-- C9 witness: whitespace rejection instantiated at a concrete input. -/
theorem wire_format_whitespace_and_sign_witness :
    (' ' :: '2' :: []) ∈ (splitOnDot " 2.33.5.14".toList).take 4
    ∧ ' ' ∈ (' ' :: '2' :: []) ∧ (' ' : Char).isWhitespace = true
    ∧ Version.from_str " 2.33.5.14".toList = none :=
  ⟨by decide, by decide, by decide,
    wire_format_whitespace_and_sign.1 " 2.33.5.14".toList (' ' :: '2' :: [])
      (by decide) ' ' (by decide) (by decide)⟩
